import Mathlib

/-!
Verification of the PDF exam-extraction pipeline (`extract_pdf_data.py`).

Shallow embedding conventions:
* Text is modelled as `List Char`; the empty Python string is `[]`.
* Python `float` coordinates and sizes are modelled as exact rationals (`ℚ`);
  all the source does with them is compare, subtract, and take min/max, so the
  float literals `0.5`, `0.85`, `-3.5`, `2.0` become the rationals
  `1/2`, `85/100`, `-(7/2)`, `2`.
* Python regular expressions are compiled by hand into scanning functions over
  `List Char`, following leftmost-match / greedy-quantifier semantics of the
  concrete patterns that appear in the source (all of which are deterministic
  because the character classes involved are pairwise disjoint).
* Python `\w` (`isWordChar`) and `\s` (`isWs`) are modelled on the ASCII range;
  codepoints above 127 are treated as word characters (the answer documents'
  non-ASCII characters are CJK letters, which Python 3 also treats as `\w`).
-/

/-- Python `\s` on the ASCII range: space, tab, newline, carriage return,
vertical tab, form feed. -/
def isWs (c : Char) : Bool :=
  c = ' ' || c = '\t' || c = '\n' || c = '\r' || c = '\x0b' || c = '\x0c'

/-- Python `\w` for `re` word boundaries: ASCII alphanumerics and underscore;
codepoints above 127 (CJK letters in these documents) also count as word
characters. -/
def isWordChar (c : Char) : Bool :=
  c.isAlphanum || c = '_' || 127 < c.toNat

/-- The character class `[ABCD]`. -/
def isAnswerLetter (c : Char) : Bool :=
  c = 'A' || c = 'B' || c = 'C' || c = 'D'

/-- `fw_map`: the fullwidth-to-ASCII normalisation table used by
`parse_answers` (`Ａ Ｂ Ｃ Ｄ` and the ideographic space `U+3000`). -/
def normFwChar (c : Char) : Char :=
  if c = 'Ａ' then 'A'
  else if c = 'Ｂ' then 'B'
  else if c = 'Ｃ' then 'C'
  else if c = 'Ｄ' then 'D'
  else if c = '　' then ' '
  else c

/-- `norm = answer_pdf_text.translate(fw_map)`. -/
def normFw (s : List Char) : List Char := s.map normFwChar

/-- A `\b` word boundary to the left of the current character, given the
previous character of the text (`none` at the start of the text). -/
def boundaryL : Option Char → Bool
  | none => true
  | some p => !isWordChar p

/-- A `\b` word boundary to the right of the current character, given the rest
of the text. -/
def boundaryR : List Char → Bool
  | [] => true
  | d :: _ => !isWordChar d

/-- `re.findall(r"\b[ABCD]\b", norm)`: each match is a single letter of
`[ABCD]` whose left neighbour (if any) and right neighbour (if any) are
non-word characters.  The scan carries the previous character. -/
def wordTokens : Option Char → List Char → List Char
  | _, [] => []
  | prev, c :: rest =>
      if isAnswerLetter c && boundaryL prev && boundaryR rest then
        c :: wordTokens (some c) rest
      else
        wordTokens (some c) rest

/-- `re.findall(r"[ABCD]", norm)`: the bare-letter fallback pass. -/
def bareTokens (s : List Char) : List Char := s.filter isAnswerLetter

/-- `parse_answers`: normalise fullwidth letters, take the word-boundary
tokens, fall back to bare letters when fewer than 80 were found, keep the
first 80, and fail (`None` models the `ValueError`) unless exactly 80 remain.
The Python function returns the dict `{i + 1: answers[i] for i in range(80)}`;
since its keys are exactly `1..80` we return the length-80 answer list and
model dict lookup by `answerGet` below. -/
def parse_answers (s : List Char) : Option (List Char) :=
  let norm := normFw s
  let t1 := wordTokens none norm
  let tokens := if t1.length < 80 then bareTokens norm else t1
  let answers := tokens.take 80
  if answers.length = 80 then some answers else none

/-- `answer_map.get(n, "")` for the dict `{i + 1: answers[i]}` built by
`parse_answers`: a key in `1..80` yields the single-letter string
`answers[n-1]`, any other key the empty string.  (The `'A'` default of `getD`
is unreachable: `parse_answers` only ever produces lists of length 80.) -/
def answerGet (am : List Char) (n : Nat) : List Char :=
  if 1 ≤ n ∧ n ≤ 80 then [am.getD (n - 1) 'A'] else []

theorem wordTokens_sublist_bareTokens (l : List Char) :
    ∀ prev, (wordTokens prev l).Sublist (bareTokens l) := by
  induction l with
  | nil => intro prev; simp [wordTokens, bareTokens]
  | cons c rest ih =>
      intro prev
      simp only [wordTokens, bareTokens, List.filter_cons]
      by_cases hb : (isAnswerLetter c && boundaryL prev && boundaryR rest) = true
      · rw [if_pos hb]
        have hA : isAnswerLetter c = true := by
          simp only [Bool.and_eq_true] at hb; exact hb.1.1
        simp only [hA, if_true]
        exact List.Sublist.cons₂ c (ih (some c))
      · rw [if_neg hb]
        by_cases hA : isAnswerLetter c = true
        · simp only [hA, if_true]
          exact List.Sublist.cons c (ih (some c))
        · simp only [hA, if_false]
          exact ih (some c)

theorem mem_wordTokens_isAnswerLetter {l : List Char} {c : Char} :
    ∀ {prev}, c ∈ wordTokens prev l → isAnswerLetter c := by
  induction l with
  | nil => intro prev h; simp [wordTokens] at h
  | cons d rest ih =>
      intro prev h
      simp only [wordTokens] at h
      split at h
      · rename_i hcond
        rcases List.mem_cons.mp h with h1 | h2
        · subst h1
          simp only [Bool.and_eq_true] at hcond
          exact hcond.1.1
        · exact ih h2
      · exact ih h

/-- C1. Answer Key Parser: the parse fails (the `ValueError` is raised,
modelled as `none`) precisely when even the bare-letter fallback pass
recovers fewer than 80 `A`/`B`/`C`/`D` tokens; and when the word-boundary
pass finds exactly 80 isolated letters, the resulting mapping sends question
`n` to the `n`-th of those letters in document order (the returned answer
list is exactly the token list, looked up positionally by `answerGet`). -/
theorem answer_key_parser_c1 (s : List Char) :
    (parse_answers s = none ↔ (bareTokens (normFw s)).length < 80)
    ∧ ((wordTokens none (normFw s)).length = 80 →
        parse_answers s = some (wordTokens none (normFw s))) := by
  have hlen : (wordTokens none (normFw s)).length ≤ (bareTokens (normFw s)).length :=
    (wordTokens_sublist_bareTokens (normFw s) none).length_le
  constructor
  · by_cases h1 : (wordTokens none (normFw s)).length < 80
    · simp only [parse_answers, h1, if_true, List.length_take]
      rcases Nat.lt_or_ge (bareTokens (normFw s)).length 80 with h2 | h2
      · have hc : ¬ (min 80 (bareTokens (normFw s)).length = 80) := by omega
        simp [hc, h2]
      · have hc : min 80 (bareTokens (normFw s)).length = 80 := by omega
        simp only [hc, if_true]
        constructor
        · intro h; exact absurd h (by simp)
        · intro h; omega
    · simp only [parse_answers, h1, if_false, List.length_take]
      have hc : min 80 (wordTokens none (normFw s)).length = 80 := by omega
      simp only [hc, if_true]
      constructor
      · intro h; exact absurd h (by simp)
      · intro h; omega
  · intro h80
    have h1 : ¬ (wordTokens none (normFw s)).length < 80 := by omega
    simp only [parse_answers, h1, if_false]
    rw [List.take_of_length_le (by omega)]
    simp [h80]

/-- A concrete answer-key text: the 80 letters `A`, each followed by a
space, i.e. exactly 80 well-separated answer letters. -/
def ansKey80 : List Char := (List.replicate 80 ['A', ' ']).flatten

theorem answer_key_parser_c1_witness :
    parse_answers ansKey80 = some (wordTokens none (normFw ansKey80)) :=
  (answer_key_parser_c1 ansKey80).2 (by decide)

/-- A positioned character as supplied by `page.chars`: text, horizontal
extent `x0..x1`, vertical extent `top..bottom`, and font size.  `text` is a
string (pdfplumber may report multi-character text items). -/
structure Glyph where
  text : List Char
  x0 : ℚ
  x1 : ℚ
  top : ℚ
  bottom : ℚ
  size : ℚ
deriving DecidableEq

/-- `SUBSCRIPT_MAP = str.maketrans("0123456789", "₀₁₂₃₄₅₆₇₈₉")`: a
character-to-character table that is the identity outside its domain
(exactly `str.translate`'s behaviour). -/
def SUBSCRIPT_MAP : Char → Char
  | '0' => '₀'
  | '1' => '₁'
  | '2' => '₂'
  | '3' => '₃'
  | '4' => '₄'
  | '5' => '₅'
  | '6' => '₆'
  | '7' => '₇'
  | '8' => '₈'
  | '9' => '₉'
  | c => c

/-- `SUPERSCRIPT_MAP = str.maketrans("0123456789+-", "⁰¹²³⁴⁵⁶⁷⁸⁹⁺⁻")`. -/
def SUPERSCRIPT_MAP : Char → Char
  | '0' => '⁰'
  | '1' => '¹'
  | '2' => '²'
  | '3' => '³'
  | '4' => '⁴'
  | '5' => '⁵'
  | '6' => '⁶'
  | '7' => '⁷'
  | '8' => '⁸'
  | '9' => '⁹'
  | '+' => '⁺'
  | '-' => '⁻'
  | c => c

/-- `s.translate(table)`: apply a character table to every character. -/
def pyTranslate (table : Char → Char) (s : List Char) : List Char := s.map table

/-- `text.isdigit()`: non-empty and all digits.  Python also accepts
non-ASCII Unicode digits; those are outside both translation tables' domains,
so restricting to ASCII digits does not change any rendered text. -/
def pyIsDigitStr (s : List Char) : Bool := !s.isEmpty && s.all Char.isDigit

/-- `text in "+-"`: Python substring membership in the two-character string
`"+-"`, true exactly for `""`, `"+"`, `"-"` and `"+-"`. -/
def pyInPlusMinus (s : List Char) : Bool :=
  s = [] || s = ['+'] || s = ['-'] || s = ['+', '-']

/-- The mode (most frequent) font size: `max(set(sizes), key=sizes.count)`,
with the `11.0` fallback for an empty list.  Python's tie-break among
equally frequent sizes is unspecified (set iteration order); the model keeps
the first-seen size, and no theorem below depends on the tie-break. -/
def modeSize (sizes : List ℚ) : ℚ :=
  match sizes with
  | [] => 11
  | s :: rest =>
      rest.foldl (fun b x => if sizes.count b < sizes.count x then x else b) s

/-- Lexicographic key `(top, x0)` used by `sorted(chars, key=lambda c:
(c['top'], c['x0']))`. -/
def glyphKeyLE (a b : Glyph) : Prop :=
  a.top < b.top ∨ (a.top = b.top ∧ a.x0 ≤ b.x0)

instance : DecidableRel glyphKeyLE := fun a b => by
  unfold glyphKeyLE; infer_instance

instance : IsTotal Glyph glyphKeyLE where
  total a b := by
    rcases lt_trichotomy a.top b.top with h | h | h
    · exact Or.inl (Or.inl h)
    · rcases le_total a.x0 b.x0 with h2 | h2
      · exact Or.inl (Or.inr ⟨h, h2⟩)
      · exact Or.inr (Or.inr ⟨h.symm, h2⟩)
    · exact Or.inr (Or.inl h)

instance : IsTrans Glyph glyphKeyLE where
  trans a b c hab hbc := by
    rcases hab with h1 | ⟨h1, h1x⟩
    · rcases hbc with h2 | ⟨h2, _⟩
      · exact Or.inl (h1.trans h2)
      · exact Or.inl (h2 ▸ h1)
    · rcases hbc with h2 | ⟨h2, h2x⟩
      · exact Or.inl (h1 ▸ h2)
      · exact Or.inr ⟨h1.trans h2, h1x.trans h2x⟩

/-- Horizontal order used by `line_chars.sort(key=lambda c: c['x0'])`. -/
def x0LE (a b : Glyph) : Prop := a.x0 ≤ b.x0

instance : DecidableRel x0LE := fun a b => by
  unfold x0LE; infer_instance

instance : IsTotal Glyph x0LE where
  total a b := le_total a.x0 b.x0

instance : IsTrans Glyph x0LE where
  trans _ _ _ hab hbc := le_trans hab hbc

/-- `sorted(chars, key=lambda c: (c['top'], c['x0']))` (a stable sort). -/
def sortGlyphs (gs : List Glyph) : List Glyph := List.insertionSort glyphKeyLE gs

/-- `line_chars.sort(key=lambda c: c['x0'])` (a stable sort). -/
def sortLineX0 (gs : List Glyph) : List Glyph := List.insertionSort x0LE gs

/-- The line-clustering loop of `extract_text_with_subscripts`, carrying the
accumulated `lines`, the `current_line_chars`, and `current_line_top`
(initialised to the in-band sentinel `-1`; the loop re-enters its
"no current line" branch whenever `current_line_top == -1`). -/
def buildLinesGo (mode : ℚ) (acc : List (List Glyph)) (cur : List Glyph)
    (curTop : ℚ) : List Glyph → List (List Glyph)
  | [] => if cur = [] then acc else acc ++ [cur]
  | g :: gs =>
      if curTop = -1 then
        buildLinesGo mode acc (cur ++ [g]) g.top gs
      else if |g.top - curTop| > mode * (1/2) then
        buildLinesGo mode (acc ++ [cur]) [g] g.top gs
      else
        buildLinesGo mode acc (cur ++ [g]) curTop gs

/-- The line clustering of `extract_text_with_subscripts` on an already
`(top, x0)`-sorted character list. -/
def buildLines (mode : ℚ) (gs : List Glyph) : List (List Glyph) :=
  buildLinesGo mode [] [] (-1) gs

/-- Modelled from the spec: walk the sorted glyphs keeping a current line
anchor top; a glyph joins the current line exactly when
`|glyph.top - anchor.top| ≤ 0.5 × dominantSize`, otherwise it starts a new
line and becomes the new anchor.  (Reference definition for the refinement
proof; `buildLines` above is the source's loop.) -/
def lineGroupsSpecGo (mode : ℚ) (cur : List Glyph) (anchor : ℚ) :
    List Glyph → List (List Glyph)
  | [] => [cur]
  | g :: gs =>
      if |g.top - anchor| ≤ mode * (1/2) then
        lineGroupsSpecGo mode (cur ++ [g]) anchor gs
      else
        cur :: lineGroupsSpecGo mode [g] g.top gs

/-- Modelled from the spec: the anchor-based line grouping, empty pages give
an empty line set. -/
def lineGroupsSpec (mode : ℚ) : List Glyph → List (List Glyph)
  | [] => []
  | g :: gs => lineGroupsSpecGo mode [g] g.top gs

/-- The lines of one page as the source produces them: mode size from the
raw character list, characters sorted by `(top, x0)`, clustered, and each
line finally re-sorted by `x0`. -/
def pageLines (gs : List Glyph) : List (List Glyph) :=
  (buildLines (modeSize (gs.map Glyph.size)) (sortGlyphs gs)).map sortLineX0

/-- The inter-glyph space rule: one space when
`char['x0'] - prev_char['x1'] > 2.0`, and never before the first glyph. -/
def spaceBefore (prev : Option Glyph) (g : Glyph) : List Char :=
  match prev with
  | some p => if g.x0 - p.x1 > 2 then [' '] else []
  | none => []

/-- The per-character classification of the rendering loop: a candidate
(digit/sign text, `size < 0.85 × mode`) with a preceding glyph is translated
through `SUPERSCRIPT_MAP` when `bottom - prev.bottom < -3.5` and through
`SUBSCRIPT_MAP` otherwise; a candidate with no preceding glyph, and every
non-candidate, passes through unchanged. -/
def emitGlyph (mode : ℚ) (prev : Option Glyph) (g : Glyph) : List Char :=
  if (pyIsDigitStr g.text || pyInPlusMinus g.text)
      && decide (g.size < mode * (85/100)) then
    match prev with
    | some p =>
        if g.bottom - p.bottom < -(7/2) then pyTranslate SUPERSCRIPT_MAP g.text
        else pyTranslate SUBSCRIPT_MAP g.text
    | none => g.text
  else g.text

/-- The rendering loop over one line's glyphs, carrying `prev_char`. -/
def renderFrom (mode : ℚ) : Option Glyph → List Glyph → List Char
  | _, [] => []
  | prev, g :: rest =>
      spaceBefore prev g ++ emitGlyph mode prev g ++ renderFrom mode (some g) rest

/-- `line_str` for one line (glyphs already sorted by `x0`). -/
def renderLine (mode : ℚ) (gs : List Glyph) : List Char := renderFrom mode none gs

/-- Modelled from the spec: plain rendering of a line — original glyph texts
concatenated, with the word-gap spaces, and no script substitution. -/
def plainFrom : Option Glyph → List Glyph → List Char
  | _, [] => []
  | prev, g :: rest => spaceBefore prev g ++ g.text ++ plainFrom (some g) rest

theorem buildLinesGo_eq_spec (mode : ℚ) :
    ∀ (gs : List Glyph) (acc : List (List Glyph)) (cur : List Glyph) (a : ℚ),
      a ≠ -1 → cur ≠ [] → (∀ g ∈ gs, g.top ≠ -1) →
      buildLinesGo mode acc cur a gs = acc ++ lineGroupsSpecGo mode cur a gs := by
  intro gs
  induction gs with
  | nil =>
      intro acc cur a _ hcur _
      simp [buildLinesGo, lineGroupsSpecGo, hcur]
  | cons g rest ih =>
      intro acc cur a ha hcur hall
      have hg : g.top ≠ -1 := hall g (by simp)
      have hrest : ∀ x ∈ rest, x.top ≠ -1 := fun x hx => hall x (by simp [hx])
      simp only [buildLinesGo, lineGroupsSpecGo, if_neg ha]
      by_cases hgt : |g.top - a| > mode * (1/2)
      · rw [if_pos hgt, if_neg (not_le_of_lt hgt)]
        rw [ih (acc ++ [cur]) [g] g.top hg (by simp) hrest]
        simp
      · rw [if_neg hgt, if_pos (le_of_not_lt hgt)]
        exact ih acc (cur ++ [g]) a ha (by simp) hrest

theorem lineGroupsSpecGo_flatten (mode : ℚ) :
    ∀ (gs cur : List Glyph) (a : ℚ),
      (lineGroupsSpecGo mode cur a gs).flatten = cur ++ gs := by
  intro gs
  induction gs with
  | nil => intro cur a; simp [lineGroupsSpecGo]
  | cons g rest ih =>
      intro cur a
      simp only [lineGroupsSpecGo]
      by_cases h : |g.top - a| ≤ mode * (1/2)
      · rw [if_pos h, ih]; simp
      · rw [if_neg h]
        simp only [List.flatten_cons, ih]
        simp

theorem buildLines_eq_spec (mode : ℚ) (gs : List Glyph)
    (h : ∀ g ∈ gs, g.top ≠ -1) :
    buildLines mode gs = lineGroupsSpec mode gs := by
  cases gs with
  | nil => simp [buildLines, buildLinesGo, lineGroupsSpec]
  | cons g rest =>
      have hg : g.top ≠ -1 := h g (by simp)
      have hrest : ∀ x ∈ rest, x.top ≠ -1 := fun x hx => h x (by simp [hx])
      show buildLinesGo mode [] [] (-1) (g :: rest) = _
      rw [buildLinesGo, if_pos rfl]
      rw [buildLinesGo_eq_spec mode rest [] ([] ++ [g]) g.top hg (by simp) hrest]
      simp [lineGroupsSpec]

theorem flatten_map_sortLineX0_perm (L : List (List Glyph)) :
    ((L.map sortLineX0).flatten).Perm L.flatten := by
  induction L with
  | nil => simp
  | cons l rest ih =>
      simp only [List.map_cons, List.flatten_cons]
      exact (List.perm_insertionSort x0LE l).append ih

/-- C4 (amended). Line Reconstructor: provided no glyph's `top` equals the
in-band sentinel `-1`, line reconstruction is a partition — the emitted
lines' glyphs are a permutation of the page's glyph set, each emitted line
is sorted by `x0`, and the source's clustering loop agrees with the spec's
anchor rule (a glyph joins the current line exactly when
`|glyph.top - anchor.top| ≤ 0.5 × dominantSize`).  The proviso is forced:
when a glyph with `top = -1` becomes the anchor, the loop mistakes it for
the "no current line yet" sentinel and the next glyph joins unconditionally
(see the counterexample). -/
theorem line_reconstructor_c4 (gs : List Glyph)
    (h : ∀ g ∈ gs, g.top ≠ -1) :
    ((pageLines gs).flatten).Perm gs
    ∧ (∀ l ∈ pageLines gs, List.Sorted x0LE l)
    ∧ buildLines (modeSize (gs.map Glyph.size)) (sortGlyphs gs)
        = lineGroupsSpec (modeSize (gs.map Glyph.size)) (sortGlyphs gs) := by
  have hsort : (sortGlyphs gs).Perm gs := List.perm_insertionSort _ _
  have hmem : ∀ g ∈ sortGlyphs gs, g.top ≠ -1 := fun g hg => h g (hsort.subset hg)
  have heq := buildLines_eq_spec (modeSize (gs.map Glyph.size)) (sortGlyphs gs) hmem
  refine ⟨?_, ?_, heq⟩
  · unfold pageLines
    refine (flatten_map_sortLineX0_perm _).trans ?_
    rw [heq]
    cases hsg : sortGlyphs gs with
    | nil =>
        rw [hsg] at hsort
        have : gs = [] := hsort.symm.eq_nil
        subst this
        simp [lineGroupsSpec]
    | cons g rest =>
        rw [hsg] at hsort
        simp only [lineGroupsSpec]
        rw [lineGroupsSpecGo_flatten]
        simpa using hsort
  · intro l hl
    unfold pageLines at hl
    rcases List.mem_map.mp hl with ⟨l0, _, rfl⟩
    exact List.sorted_insertionSort x0LE l0

/-- A glyph whose `top` is exactly the sentinel value `-1`. -/
def c4gA : Glyph := { text := ['a'], x0 := 0, x1 := 1, top := -1, bottom := 0, size := 10 }

/-- A glyph a full 101 units below `c4gA`, far beyond any line tolerance. -/
def c4gB : Glyph := { text := ['b'], x0 := 0, x1 := 1, top := 100, bottom := 101, size := 10 }

theorem line_reconstructor_c4_counterexample :
    ¬ (|c4gB.top - c4gA.top| ≤ modeSize ([c4gA, c4gB].map Glyph.size) * (1/2))
    ∧ pageLines [c4gA, c4gB] = [[c4gA, c4gB]] := by
  constructor
  · norm_num [c4gA, c4gB, modeSize, abs_le]
  · norm_num [pageLines, buildLines, buildLinesGo, sortGlyphs, sortLineX0,
      modeSize, glyphKeyLE, x0LE, c4gA, c4gB]
    rw [if_neg (by simp)]
    norm_num [sortLineX0, x0LE, c4gA, c4gB]

/-- Two ordinary glyphs on distinct lines (tops `0` and `100`). -/
def c4gC : Glyph := { text := ['c'], x0 := 0, x1 := 1, top := 0, bottom := 1, size := 10 }

/-- See `c4gC`. -/
def c4gD : Glyph := { text := ['d'], x0 := 0, x1 := 1, top := 100, bottom := 101, size := 10 }

theorem line_reconstructor_c4_witness :
    ((pageLines [c4gC, c4gD]).flatten).Perm [c4gC, c4gD]
    ∧ (∀ l ∈ pageLines [c4gC, c4gD], List.Sorted x0LE l)
    ∧ buildLines (modeSize ([c4gC, c4gD].map Glyph.size)) (sortGlyphs [c4gC, c4gD])
        = lineGroupsSpec (modeSize ([c4gC, c4gD].map Glyph.size)) (sortGlyphs [c4gC, c4gD]) :=
  line_reconstructor_c4 [c4gC, c4gD] (by norm_num [c4gC, c4gD])

/-- The value of `prev_char` after the rendering loop has consumed `xs`,
starting from `prev`. -/
def lastPrev (prev : Option Glyph) : List Glyph → Option Glyph
  | [] => prev
  | x :: xs => lastPrev (some x) xs

theorem lastPrev_concat (p : Glyph) (xs : List Glyph) :
    ∀ prev, lastPrev prev (xs ++ [p]) = some p := by
  induction xs with
  | nil => intro prev; rfl
  | cons x rest ih => intro prev; exact ih (some x)

theorem renderFrom_append (mode : ℚ) (xs : List Glyph) :
    ∀ (prev : Option Glyph) (ys : List Glyph),
      renderFrom mode prev (xs ++ ys)
        = renderFrom mode prev xs ++ renderFrom mode (lastPrev prev xs) ys := by
  induction xs with
  | nil => intro prev ys; simp [renderFrom, lastPrev]
  | cons x xs ih =>
      intro prev ys
      rw [List.cons_append, renderFrom, renderFrom, ih (some x) ys]
      simp [lastPrev, List.append_assoc]

theorem renderLine_decomp (mode : ℚ) (pre suf : List Glyph) (p g : Glyph) :
    renderLine mode (pre ++ p :: g :: suf)
      = renderLine mode (pre ++ [p]) ++ spaceBefore (some p) g
        ++ emitGlyph mode (some p) g ++ renderFrom mode (some g) suf := by
  have hsplit : pre ++ p :: g :: suf = (pre ++ [p]) ++ (g :: suf) := by simp
  rw [renderLine, hsplit, renderFrom_append, lastPrev_concat]
  simp only [renderFrom, renderLine, List.append_assoc]

theorem emitGlyph_gate (mode : ℚ) (g : Glyph) (c : Char)
    (htext : g.text = [c]) (hkind : c.isDigit ∨ c = '+' ∨ c = '-')
    (hsize : g.size < mode * (85/100)) :
    ((pyIsDigitStr g.text || pyInPlusMinus g.text)
      && decide (g.size < mode * (85/100))) = true := by
  rw [htext]
  rcases hkind with h | h | h
  · simp [pyIsDigitStr, h, hsize]
  · subst h; simp [pyInPlusMinus, hsize]
  · subst h; simp [pyInPlusMinus, hsize]

theorem emitGlyph_some (mode : ℚ) (p g : Glyph) (c : Char)
    (htext : g.text = [c]) (hkind : c.isDigit ∨ c = '+' ∨ c = '-')
    (hsize : g.size < mode * (85/100)) :
    emitGlyph mode (some p) g
      = if g.bottom - p.bottom < -(7/2) then pyTranslate SUPERSCRIPT_MAP g.text
        else pyTranslate SUBSCRIPT_MAP g.text := by
  unfold emitGlyph
  rw [if_pos (emitGlyph_gate mode g c htext hkind hsize)]

theorem emitGlyph_none (mode : ℚ) (g : Glyph) (c : Char)
    (htext : g.text = [c]) (hkind : c.isDigit ∨ c = '+' ∨ c = '-')
    (hsize : g.size < mode * (85/100)) :
    emitGlyph mode none g = g.text := by
  unfold emitGlyph
  rw [if_pos (emitGlyph_gate mode g c htext hkind hsize)]

/-- C5. Script Normalizer classification: a glyph on a line whose text is a
decimal digit or `+`/`-`, whose size is strictly below `0.85 ×` the dominant
size, and which has a preceding glyph `p` on its line, contributes the
`SUPERSCRIPT_MAP` translation of its text when
`bottom − p.bottom < −3.5` and the `SUBSCRIPT_MAP` translation otherwise;
such a glyph standing first on its line is emitted unmodified. -/
theorem script_classifier_c5 (mode : ℚ) (pre suf : List Glyph) (p g : Glyph)
    (c : Char) (htext : g.text = [c]) (hkind : c.isDigit ∨ c = '+' ∨ c = '-')
    (hsize : g.size < mode * (85/100)) :
    renderLine mode (pre ++ p :: g :: suf)
      = renderLine mode (pre ++ [p]) ++ spaceBefore (some p) g
        ++ (if g.bottom - p.bottom < -(7/2)
            then pyTranslate SUPERSCRIPT_MAP g.text
            else pyTranslate SUBSCRIPT_MAP g.text)
        ++ renderFrom mode (some g) suf
    ∧ renderLine mode (g :: suf) = g.text ++ renderFrom mode (some g) suf := by
  constructor
  · rw [renderLine_decomp, emitGlyph_some mode p g c htext hkind hsize]
  · show renderFrom mode none (g :: suf) = _
    rw [renderFrom, emitGlyph_none mode g c htext hkind hsize]
    simp [spaceBefore]

/-- The previous glyph of the spec's subscript scenario: full-size, bottom at
`20`. -/
def c5p : Glyph := { text := ['O'], x0 := 0, x1 := 1, top := 10, bottom := 20, size := 10 }

/-- The candidate digit glyph of the spec's subscript scenario: `70 %` of the
dominant size, bottom `1.1` units below the previous glyph's. -/
def c5g : Glyph := { text := ['2'], x0 := 3/2, x1 := 2, top := 12, bottom := 211/10, size := 7 }

theorem script_classifier_c5_witness :
    renderLine 10 ([] ++ c5p :: c5g :: [])
      = renderLine 10 ([] ++ [c5p]) ++ spaceBefore (some c5p) c5g
        ++ (if c5g.bottom - c5p.bottom < -(7/2)
            then pyTranslate SUPERSCRIPT_MAP c5g.text
            else pyTranslate SUBSCRIPT_MAP c5g.text)
        ++ renderFrom 10 (some c5g) []
    ∧ renderLine 10 (c5g :: []) = c5g.text ++ renderFrom 10 (some c5g) [] :=
  script_classifier_c5 10 [] [] c5p c5g '2' rfl (Or.inl (by decide))
    (by norm_num [c5g])

/-- C7. Script Normalizer on an already-plain line: when no glyph of the
line is smaller than `0.85 ×` the dominant size, no character substitution
occurs — the emitted line is exactly the glyphs' original texts concatenated
with the word-gap spaces. -/
theorem script_normalizer_plain_c7 (mode : ℚ) (gs : List Glyph)
    (h : ∀ g ∈ gs, ¬ (g.size < mode * (85/100))) :
    renderLine mode gs = plainFrom none gs := by
  suffices hgen : ∀ (l : List Glyph), (∀ g ∈ l, ¬ (g.size < mode * (85/100))) →
      ∀ prev, renderFrom mode prev l = plainFrom prev l by
    exact hgen gs h none
  intro l
  induction l with
  | nil => intro _ prev; rfl
  | cons g rest ih =>
      intro hl prev
      have hg : ¬ (g.size < mode * (85/100)) := hl g (by simp)
      have hrest : ∀ x ∈ rest, ¬ (x.size < mode * (85/100)) :=
        fun x hx => hl x (by simp [hx])
      have hemit : emitGlyph mode prev g = g.text := by
        simp [emitGlyph, hg]
      rw [renderFrom, plainFrom, hemit, ih hrest (some g)]

/-- Two full-size digit glyphs: candidates by text but not by size. -/
def c7g1 : Glyph := { text := ['H'], x0 := 0, x1 := 6, top := 10, bottom := 20, size := 10 }

/-- See `c7g1`; placed far enough right of `c7g1` to get a word-gap space. -/
def c7g2 : Glyph := { text := ['2'], x0 := 10, x1 := 16, top := 10, bottom := 20, size := 10 }

theorem script_normalizer_plain_c7_witness :
    renderLine 10 [c7g1, c7g2] = plainFrom none [c7g1, c7g2] :=
  script_normalizer_plain_c7 10 [c7g1, c7g2] (by norm_num [c7g1, c7g2])

/-- C9. A `+` or `-` glyph that is a script-elevation candidate and falls in
the subscript branch is emitted unchanged: `SUBSCRIPT_MAP` covers only the
digits `0`–`9`, so translating `+`/`-` through it is the identity (only
`SUPERSCRIPT_MAP` maps `+` and `-`). -/
theorem sign_subscript_passthrough_c9 (mode : ℚ) (pre suf : List Glyph)
    (p g : Glyph) (hkind : g.text = ['+'] ∨ g.text = ['-'])
    (hsize : g.size < mode * (85/100))
    (hdiff : ¬ (g.bottom - p.bottom < -(7/2))) :
    pyTranslate SUBSCRIPT_MAP g.text = g.text
    ∧ renderLine mode (pre ++ p :: g :: suf)
      = renderLine mode (pre ++ [p]) ++ spaceBefore (some p) g ++ g.text
        ++ renderFrom mode (some g) suf := by
  have hsub : pyTranslate SUBSCRIPT_MAP g.text = g.text := by
    rcases hkind with h | h <;> rw [h] <;> rfl
  refine ⟨hsub, ?_⟩
  have hkind2 : ∃ c, g.text = [c] ∧ (c.isDigit ∨ c = '+' ∨ c = '-') := by
    rcases hkind with h | h
    · exact ⟨'+', h, Or.inr (Or.inl rfl)⟩
    · exact ⟨'-', h, Or.inr (Or.inr rfl)⟩
  rcases hkind2 with ⟨c, htext, hk⟩
  rw [renderLine_decomp, emitGlyph_some mode p g c htext hk hsize]
  rw [if_neg hdiff, hsub]

/-- A `+` glyph at `70 %` of the dominant size whose baseline sits `1` unit
below the previous glyph's — a subscript-classified sign. -/
def c9g : Glyph := { text := ['+'], x0 := 3/2, x1 := 2, top := 12, bottom := 21, size := 7 }

theorem sign_subscript_passthrough_c9_witness :
    pyTranslate SUBSCRIPT_MAP c9g.text = c9g.text
    ∧ renderLine 10 ([] ++ c5p :: c9g :: [])
      = renderLine 10 ([] ++ [c5p]) ++ spaceBefore (some c5p) c9g ++ c9g.text
        ++ renderFrom 10 (some c9g) [] :=
  sign_subscript_passthrough_c9 10 [] [] c5p c9g (Or.inl rfl)
    (by norm_num [c9g]) (by norm_num [c9g, c5p])

/-- An image placement on a page (`extract_image_metadata` entry, page-local:
the `page_index` field is handled by the per-page pre-filtering). -/
structure Img where
  x0 : ℚ
  top : ℚ
  x1 : ℚ
  bottom : ℚ
deriving DecidableEq

/-- A question label location on a page (`question_locs` entry). -/
structure QLoc where
  number : Nat
  top : ℚ
  bottom : ℚ
deriving DecidableEq

instance : Inhabited QLoc := ⟨⟨0, 0, 0⟩⟩

/-- The end of question `i`'s vertical span in `parse_questions_with_images`:
the next label's `top`, or the constant `9999` for the last question on the
page (`q_end = 9999  # End of page`). -/
def qSpanEnd (locs : List QLoc) (i : Nat) : ℚ :=
  if i < locs.length - 1 then (locs.getD (i + 1) default).top else 9999

/-- `related_imgs`: the images whose `top` lies strictly between the `i`-th
label's `top` and the span end (`q_start < img['top'] < q_end`). -/
def relatedImgs (locs : List QLoc) (imgs : List Img) (i : Nat) : List Img :=
  imgs.filter fun im =>
    decide ((locs.getD i default).top < im.top) && decide (im.top < qSpanEnd locs i)

/-- C3 (amended). Figure Associator spans: with the page's question labels
sorted by `top`, an image is attributed to question `i` iff its `top` lies
strictly between label `i`'s `top` and the next label's `top` — where the
span of the **last** question ends at the sentinel `9999`, not at `+∞`
(see the counterexample: an image with `top ≥ 9999` is attributed to no
question).  In particular an image at or above the first label's `top` is
attributed to no question. -/
theorem figure_spans_c3 (locs : List QLoc) (imgs : List Img) (i : Nat)
    (hi : i < locs.length) :
    (∀ im, im ∈ relatedImgs locs imgs i ↔
      im ∈ imgs ∧ (locs.getD i default).top < im.top ∧
        (if i + 1 < locs.length then im.top < (locs.getD (i + 1) default).top
         else im.top < 9999))
    ∧ (∀ im ∈ imgs, im.top ≤ (locs.getD 0 default).top →
        im ∉ relatedImgs locs imgs 0) := by
  have hspan : ∀ t : ℚ, t < qSpanEnd locs i ↔
      (if i + 1 < locs.length then t < (locs.getD (i + 1) default).top
       else t < 9999) := by
    intro t
    unfold qSpanEnd
    by_cases h : i + 1 < locs.length
    · rw [if_pos h, if_pos (by omega)]
    · rw [if_neg h, if_neg (by omega)]
  constructor
  · intro im
    rw [relatedImgs, List.mem_filter]
    constructor
    · rintro ⟨h1, h2⟩
      simp only [Bool.and_eq_true, decide_eq_true_eq] at h2
      exact ⟨h1, h2.1, (hspan im.top).mp h2.2⟩
    · rintro ⟨h1, h2, h3⟩
      refine ⟨h1, ?_⟩
      simp only [Bool.and_eq_true, decide_eq_true_eq]
      exact ⟨h2, (hspan im.top).mpr h3⟩
  · intro im _ htop hmem
    rw [relatedImgs, List.mem_filter] at hmem
    simp only [Bool.and_eq_true, decide_eq_true_eq] at hmem
    exact absurd hmem.2.1 (not_lt_of_le htop)

/-- The only (hence last) question label of the C3 counterexample page. -/
def c3loc : QLoc := { number := 1, top := 0, bottom := 10 }

/-- An image placement very low on an oversized page: `top = 10000`, beyond
the `9999` sentinel. -/
def c3img : Img := { x0 := 0, top := 10000, x1 := 5, bottom := 10005 }

theorem figure_spans_c3_counterexample :
    c3loc.top < c3img.top ∧ c3img ∈ [c3img]
    ∧ relatedImgs [c3loc] [c3img] 0 = [] := by
  refine ⟨by norm_num [c3loc, c3img], by simp, ?_⟩
  norm_num [relatedImgs, qSpanEnd, c3loc, c3img]

theorem figure_spans_c3_witness :
    (∀ im, im ∈ relatedImgs [c3loc] [c3img] 0 ↔
      im ∈ [c3img] ∧ (([c3loc] : List QLoc).getD 0 default).top < im.top ∧
        (if 0 + 1 < ([c3loc] : List QLoc).length
         then im.top < (([c3loc] : List QLoc).getD (0 + 1) default).top
         else im.top < 9999))
    ∧ (∀ im ∈ [c3img], im.top ≤ (([c3loc] : List QLoc).getD 0 default).top →
        im ∉ relatedImgs [c3loc] [c3img] 0) :=
  figure_spans_c3 [c3loc] [c3img] 0 (by simp)

/-- A merged figure region (`bbox = (min_x0, min_top, max_x1, max_bottom)`). -/
structure BBox where
  x0 : ℚ
  top : ℚ
  x1 : ℚ
  bottom : ℚ
deriving DecidableEq

/-- `b` contains the image placement `im`. -/
def bboxContains (b : BBox) (im : Img) : Prop :=
  b.x0 ≤ im.x0 ∧ b.top ≤ im.top ∧ im.x1 ≤ b.x1 ∧ im.bottom ≤ b.bottom

instance (b : BBox) (im : Img) : Decidable (bboxContains b im) := by
  unfold bboxContains; infer_instance

/-- Extend a bounding box to cover one more image. -/
def bstep (b : BBox) (im : Img) : BBox :=
  { x0 := min b.x0 im.x0, top := min b.top im.top,
    x1 := max b.x1 im.x1, bottom := max b.bottom im.bottom }

/-- The union bounding box of `related_imgs`:
`(min of x0, min of top, max of x1, max of bottom)` over a non-empty list,
computed as a fold from the first element. -/
def unionBBox : List Img → Option BBox
  | [] => none
  | im :: rest =>
      some (rest.foldl bstep ⟨im.x0, im.top, im.x1, im.bottom⟩)

/-- One box is coordinatewise at least as large as another. -/
def bboxExtends (b b0 : BBox) : Prop :=
  b.x0 ≤ b0.x0 ∧ b.top ≤ b0.top ∧ b0.x1 ≤ b.x1 ∧ b0.bottom ≤ b.bottom

theorem unionBBox_fold_spec (rest : List Img) :
    ∀ b0 : BBox,
      bboxExtends (rest.foldl bstep b0) b0
      ∧ (∀ im ∈ rest, bboxContains (rest.foldl bstep b0) im)
      ∧ (∀ c : BBox, bboxExtends c b0 → (∀ im ∈ rest, bboxContains c im) →
          bboxExtends c (rest.foldl bstep b0)) := by
  induction rest with
  | nil =>
      intro b0
      refine ⟨⟨le_refl _, le_refl _, le_refl _, le_refl _⟩, ?_, ?_⟩
      · intro im him; simp at him
      · intro c hc _; exact hc
  | cons im rest ih =>
      intro b0
      have hstep : bboxExtends (bstep b0 im) b0 :=
        ⟨min_le_left _ _, min_le_left _ _, le_max_left _ _, le_max_left _ _⟩
      have hstep2 : bboxContains (bstep b0 im) im :=
        ⟨min_le_right _ _, min_le_right _ _, le_max_right _ _, le_max_right _ _⟩
      obtain ⟨h1, h2, h3⟩ := ih (bstep b0 im)
      refine ⟨?_, ?_, ?_⟩
      · exact ⟨h1.1.trans hstep.1, h1.2.1.trans hstep.2.1,
          hstep.2.2.1.trans h1.2.2.1, hstep.2.2.2.trans h1.2.2.2⟩
      · intro x hx
        rcases List.mem_cons.mp hx with h | h
        · subst h
          exact ⟨h1.1.trans hstep2.1, h1.2.1.trans hstep2.2.1,
            hstep2.2.2.1.trans h1.2.2.1, hstep2.2.2.2.trans h1.2.2.2⟩
        · exact h2 x h
      · intro c hc hall
        have hcim : bboxContains c im := hall im (by simp)
        have hcb : bboxExtends c (bstep b0 im) :=
          ⟨le_min hc.1 hcim.1, le_min hc.2.1 hcim.2.1,
            max_le hc.2.2.1 hcim.2.2.1, max_le hc.2.2.2 hcim.2.2.2⟩
        exact h3 c hcb (fun x hx => hall x (by simp [hx]))

/-- C6. Figure merging: for a non-empty set of image placements attributed
to one question, the merged region is exactly the union bounding box of
those placements — it contains every one of them, and any box containing
all of them contains it (so its `x0`/`top` are the minima and its
`x1`/`bottom` the maxima of the placements' coordinates). -/
theorem union_bbox_c6 (locs : List QLoc) (imgs : List Img) (i : Nat)
    (h : relatedImgs locs imgs i ≠ []) :
    ∃ b : BBox, unionBBox (relatedImgs locs imgs i) = some b
      ∧ (∀ im ∈ relatedImgs locs imgs i, bboxContains b im)
      ∧ (∀ c : BBox, (∀ im ∈ relatedImgs locs imgs i, bboxContains c im) →
          bboxExtends c b) := by
  cases hrel : relatedImgs locs imgs i with
  | nil => exact absurd hrel h
  | cons im rest =>
      obtain ⟨h1, h2, h3⟩ := unionBBox_fold_spec rest ⟨im.x0, im.top, im.x1, im.bottom⟩
      refine ⟨rest.foldl bstep ⟨im.x0, im.top, im.x1, im.bottom⟩, rfl, ?_, ?_⟩
      · intro x hx
        rcases List.mem_cons.mp hx with hx1 | hx2
        · subst hx1; exact h1
        · exact h2 x hx2
      · intro c hc
        exact h3 c (hc im (by simp)) (fun x hx => hc x (by simp [hx]))

/-- Question 5's label for the C6 witness page (label tops `0` and `100`). -/
def c6loc5 : QLoc := { number := 5, top := 0, bottom := 10 }

/-- Question 6's label for the C6 witness page. -/
def c6loc6 : QLoc := { number := 6, top := 100, bottom := 110 }

/-- First image fragment inside question 5's span. -/
def c6imgA : Img := { x0 := 10, top := 20, x1 := 30, bottom := 40 }

/-- Second image fragment inside question 5's span. -/
def c6imgB : Img := { x0 := 5, top := 30, x1 := 25, bottom := 50 }

theorem union_bbox_c6_witness :
    ∃ b : BBox, unionBBox (relatedImgs [c6loc5, c6loc6] [c6imgA, c6imgB] 0) = some b
      ∧ (∀ im ∈ relatedImgs [c6loc5, c6loc6] [c6imgA, c6imgB] 0, bboxContains b im)
      ∧ (∀ c : BBox,
          (∀ im ∈ relatedImgs [c6loc5, c6loc6] [c6imgA, c6imgB] 0, bboxContains c im) →
          bboxExtends c b) :=
  union_bbox_c6 [c6loc5, c6loc6] [c6imgA, c6imgB] 0
    (by norm_num [relatedImgs, qSpanEnd, c6loc5, c6loc6, c6imgA, c6imgB]; simp)

/-- `text.replace("\r", "\n")`. -/
def crToNl (s : List Char) : List Char :=
  s.map fun c => if c = '\r' then '\n' else c

/-- Python `str.strip()` on the ASCII whitespace model: drop leading and
trailing whitespace. -/
def pyStrip (s : List Char) : List Char :=
  ((s.dropWhile isWs).reverse.dropWhile isWs).reverse

/-- `int(num_str)` for a run of decimal digits. -/
def digitsToNat (ds : List Char) : Nat :=
  ds.foldl (fun a c => 10 * a + (c.toNat - '0'.toNat)) 0

/-- Match `\s*(\d{1,3})\.` at the head of `u` (the body of the block
pattern after its `^` anchor): greedy whitespace, one to three digits, then
a literal dot.  A run of four or more digits cannot match (any one-to-three
digit prefix is followed by a digit, not the dot). -/
def numPrefix (u : List Char) : Option (Nat × List Char) :=
  let t := u.dropWhile isWs
  let ds := t.takeWhile Char.isDigit
  let r := t.dropWhile Char.isDigit
  if 1 ≤ ds.length ∧ ds.length ≤ 3 then
    match r with
    | '.' :: rest => some (digitsToNat ds, rest)
    | _ => none
  else none

/-- The lazy body `(.*?)` of the block pattern: consume characters until the
first position satisfying the lookahead `(?=^\s*\d{1,3}\.|$\Z)` — i.e. end
of text, or a line start (`atLS`: the previous character was a newline)
where `\s*\d{1,3}\.` matches.  Returns (captured content, rest). -/
def takeBlockContent : Bool → List Char → List Char × List Char
  | _, [] => ([], [])
  | atLS, c :: rest =>
      if atLS ∧ (numPrefix (c :: rest)).isSome then ([], c :: rest)
      else
        let p := takeBlockContent (c = '\n') rest
        (c :: p.1, p.2)

/-- The scan of `block_pat.findall`
(`(?m)^\s*(\d{1,3})\.(.*?)(?=^\s*\d{1,3}\.|$\Z)` with `re.S`): at every
line-start candidate position try `\s*\d{1,3}\.`, capture lazily to the next
such line start or to the end, and continue at the match end.  Fuel-driven;
`length + 1` fuel always suffices since every step consumes at least one
character. -/
def blockScan : Nat → Bool → List Char → List (Nat × List Char)
  | 0, _, _ => []
  | _, _, [] => []
  | fuel + 1, atLS, c :: rest =>
      if atLS then
        match numPrefix (c :: rest) with
        | some (n, afterDot) =>
            let p := takeBlockContent false afterDot
            (n, p.1) :: blockScan fuel true p.2
        | none => blockScan fuel (c = '\n') rest
      else blockScan fuel (c = '\n') rest

/-- `block_pat.findall(text)`: the block scan from position `0`, which is a
line start. -/
def blockFindall (text : List Char) : List (Nat × List Char) :=
  blockScan (text.length + 1) true text

/-- Does `\n\s*A\.` match at the head of `s`? -/
def matchNlA (s : List Char) : Bool :=
  match s with
  | '\n' :: rest =>
      match rest.dropWhile isWs with
      | 'A' :: '.' :: _ => true
      | _ => false
  | _ => false

/-- Does `\sA\.` match at the head of `s`? -/
def matchWsA (s : List Char) : Bool :=
  match s with
  | c :: 'A' :: '.' :: _ => isWs c
  | _ => false

/-- `re.search`: the first position whose suffix matches `p`. -/
def searchFrom (p : List Char → Bool) : List Char → Option Nat
  | [] => none
  | c :: rest =>
      if p (c :: rest) then some 0 else (searchFrom p rest).map (· + 1)

/-- `mA = re.search(r"\n\s*A\.", body) or re.search(r"\sA\.", body)`:
the start index of the first option marker. -/
def findAMarker (body : List Char) : Option Nat :=
  match searchFrom matchNlA body with
  | some i => some i
  | none => searchFrom matchWsA body

/-- `re.sub(r"\s*\n\s*", " ", v)`: every maximal whitespace run containing
at least one newline collapses to a single space; all other text (including
newline-free whitespace runs) is unchanged.  Fuel-driven; `length` fuel
suffices since every step consumes at least one character. -/
def collapseNlGo : Nat → List Char → List Char
  | 0, s => s
  | _, [] => []
  | fuel + 1, c :: rest =>
      if isWs c then
        let run := c :: rest.takeWhile isWs
        let rest2 := rest.dropWhile isWs
        (if run.contains '\n' then [' '] else run) ++ collapseNlGo fuel rest2
      else c :: collapseNlGo fuel rest

/-- See `collapseNlGo`. -/
def collapseNl (s : List Char) : List Char := collapseNlGo s.length s

/-- `re.sub(r"\s*\n\s*", " ", v).strip()`, applied to every captured span. -/
def cleanup (v : List Char) : List Char := pyStrip (collapseNl v)

/-- The lookahead `(?=(?:\n\s*[ABCD]\.)|\Z)` of the option pattern. -/
def optLookahead (u : List Char) : Bool :=
  match u with
  | [] => true
  | '\n' :: v =>
      match v.dropWhile isWs with
      | a :: '.' :: _ => isAnswerLetter a
      | _ => false
  | _ => false

/-- The lazy option body `(.*?)`: consume until the first position where
`optLookahead` holds. -/
def takeOptContent : List Char → List Char × List Char
  | [] => ([], [])
  | c :: rest =>
      if optLookahead (c :: rest) then ([], c :: rest)
      else
        let p := takeOptContent rest
        (c :: p.1, p.2)

/-- The scan of `opt_pat.findall`
(`(?:^|\n)\s*([ABCD])\.\s*(.*?)(?=(?:\n\s*[ABCD]\.)|\Z)` with `re.S`):
candidates are newline positions (the caller prepends `"\n"`, which also
covers the `^` branch at position `0`); after the marker, greedy `\s*`
precedes the lazy capture.  Fuel-driven as for `blockScan`. -/
def optScan : Nat → List Char → List (Char × List Char)
  | 0, _ => []
  | _, [] => []
  | fuel + 1, c :: rest =>
      if c = '\n' then
        match (c :: rest).dropWhile isWs with
        | a :: '.' :: u =>
            if isAnswerLetter a then
              let p := takeOptContent (u.dropWhile isWs)
              (a, p.1) :: optScan fuel p.2
            else optScan fuel rest
        | _ => optScan fuel rest
      else optScan fuel rest

/-- `opt_pat.findall("\n" + opts_part)`. -/
def optFindall (s : List Char) : List (Char × List Char) :=
  optScan (s.length + 2) ('\n' :: s)

/-- The options dict `{k: re.sub(...).strip() for k, v in opt_pat.findall(...)}`
followed by `opts.setdefault(k, "")`: the last match for a letter wins
(duplicate keys overwrite), a letter with no match yields the empty
string. -/
def optsOf (ms : List (Char × List Char)) (k : Char) : List Char :=
  match (ms.filter fun pr => pr.1 = k).getLast? with
  | some pr => cleanup pr.2
  | none => []

/-- One row of the output table
(`number, Question, A, B, C, D, answer`). -/
structure QRow where
  number : Nat
  question : List Char
  optA : List Char
  optB : List Char
  optC : List Char
  optD : List Char
  answer : List Char
deriving DecidableEq

instance : Inhabited QRow := ⟨⟨0, [], [], [], [], [], []⟩⟩

/-- The per-block processing of `parse_questions`: strip the body, locate
the first `A.` option marker (skipping the block when there is none), split
into stem and options text, extract the options, and build the row with the
positional answer lookup. -/
def mkRow (am : List Char) (n : Nat) (rawBody : List Char) : Option QRow :=
  let body := pyStrip rawBody
  match findAMarker body with
  | none => none
  | some i =>
      let qText := pyStrip (body.take i)
      let optsPart := pyStrip (body.drop i)
      let ms := optFindall optsPart
      some { number := n, question := cleanup qText,
             optA := optsOf ms 'A', optB := optsOf ms 'B',
             optC := optsOf ms 'C', optD := optsOf ms 'D',
             answer := answerGet am n }

/-- The unsorted row list of `parse_questions`: every matched block whose
number lies in `1..80` and which contains an option marker yields one row,
in match order. -/
def rowsOf (text am : List Char) : List QRow :=
  (blockFindall (crToNl text)).filterMap fun pr =>
    if 1 ≤ pr.1 ∧ pr.1 ≤ 80 then mkRow am pr.1 pr.2 else none

/-- Row order of `df.sort_values("number")`. -/
def rowNumberLE (r s : QRow) : Prop := r.number ≤ s.number

instance : DecidableRel rowNumberLE := fun r s => by
  unfold rowNumberLE; infer_instance

instance : IsTotal QRow rowNumberLE where
  total a b := Nat.le_total a.number b.number

instance : IsTrans QRow rowNumberLE where
  trans _ _ _ hab hbc := Nat.le_trans hab hbc

/-- `parse_questions`: the rows, sorted by question number. -/
def parse_questions (text am : List Char) : List QRow :=
  List.insertionSort rowNumberLE (rowsOf text am)

theorem mkRow_fields (am : List Char) (n : Nat) (rawBody : List Char)
    (r : QRow) (h : mkRow am n rawBody = some r) :
    r.number = n ∧ r.answer = answerGet am n := by
  simp only [mkRow] at h
  cases hA : findAMarker (pyStrip rawBody) with
  | none => rw [hA] at h; simp at h
  | some i =>
      rw [hA] at h
      simp only [Option.some.injEq] at h
      subst h
      exact ⟨rfl, rfl⟩

theorem mem_rowsOf (text am : List Char) (r : QRow) (h : r ∈ rowsOf text am) :
    (1 ≤ r.number ∧ r.number ≤ 80) ∧ r.answer = answerGet am r.number := by
  unfold rowsOf at h
  rcases List.mem_filterMap.mp h with ⟨pr, _, hf⟩
  by_cases hrange : 1 ≤ pr.1 ∧ pr.1 ≤ 80
  · rw [if_pos hrange] at hf
    obtain ⟨hnum, hans⟩ := mkRow_fields am pr.1 pr.2 r hf
    rw [hnum]
    exact ⟨hrange, hans⟩
  · rw [if_neg hrange] at hf
    exact absurd hf (by simp)

theorem rowsOf_numbers_sublist (text am : List Char) :
    ((rowsOf text am).map QRow.number).Sublist
      ((blockFindall (crToNl text)).map Prod.fst) := by
  unfold rowsOf
  generalize blockFindall (crToNl text) = bs
  induction bs with
  | nil => simp
  | cons pr rest ih =>
      rw [List.filterMap_cons, List.map_cons]
      by_cases hrange : 1 ≤ pr.1 ∧ pr.1 ≤ 80
      · rw [if_pos hrange]
        cases hm : mkRow am pr.1 pr.2 with
        | none => exact ih.cons pr.1
        | some r =>
            rw [List.map_cons]
            have : r.number = pr.1 := (mkRow_fields am pr.1 pr.2 r hm).1
            rw [this]
            exact ih.cons₂ pr.1
      · rw [if_neg hrange]
        exact ih.cons pr.1

/-- C2 (amended). Question Segmenter numbers: every question number in the
final table lies in `1..80`; and the numbers are pairwise distinct provided
no numeric label heads more than one matched block.  The unconditional
uniqueness of the original claim fails: the source never deduplicates, so a
document in which the same label starts two blocks produces two rows with
the same number (see the counterexample). -/
theorem question_numbers_c2 (text am : List Char) :
    (∀ r ∈ parse_questions text am, 1 ≤ r.number ∧ r.number ≤ 80)
    ∧ (((blockFindall (crToNl text)).map Prod.fst).Nodup →
        ((parse_questions text am).map QRow.number).Nodup) := by
  have hperm : (parse_questions text am).Perm (rowsOf text am) :=
    List.perm_insertionSort rowNumberLE (rowsOf text am)
  constructor
  · intro r hr
    exact (mem_rowsOf text am r (hperm.subset hr)).1
  · intro hnd
    have h1 : ((rowsOf text am).map QRow.number).Nodup :=
      (rowsOf_numbers_sublist text am).nodup hnd
    exact ((hperm.map QRow.number).nodup_iff).mpr h1

/-- A document text in which the numeric label `1.` heads two distinct
blocks, each with an option marker. -/
def c2text : List Char := ("1. q A. a\n1. r A. b").toList

set_option maxRecDepth 10000 in
theorem question_numbers_c2_counterexample :
    ((parse_questions c2text ['A']).map QRow.number) = [1, 1]
    ∧ ¬ ((parse_questions c2text ['A']).map QRow.number).Nodup := by
  constructor
  · decide
  · decide

/-- A well-formed single-question document text. -/
def qtextW : List Char := ("1. q A. x").toList

set_option maxRecDepth 10000 in
theorem question_numbers_c2_witness :
    ((parse_questions qtextW ['A']).map QRow.number).Nodup :=
  (question_numbers_c2 qtextW ['A']).2 (by decide)

/-- The options text (`opts_part`) of a block, when the block has an option
marker: everything of the stripped body from the marker's match start on,
stripped again. -/
def optsPartOf (rawBody : List Char) : Option (List Char) :=
  match findAMarker (pyStrip rawBody) with
  | none => none
  | some i => some (pyStrip ((pyStrip rawBody).drop i))

/-- The option column of a row selected by its letter. -/
def optField (r : QRow) (k : Char) : List Char :=
  if k = 'A' then r.optA
  else if k = 'B' then r.optB
  else if k = 'C' then r.optC
  else r.optD

theorem optsOf_eq_nil {ms : List (Char × List Char)} {k : Char}
    (hnot : ∀ pr ∈ ms, pr.1 ≠ k) : optsOf ms k = [] := by
  unfold optsOf
  have hfil : ms.filter (fun pr => pr.1 = k) = [] :=
    List.filter_eq_nil_iff.mpr (fun pr hpr => by simpa using hnot pr hpr)
  rw [hfil]
  rfl

/-- C8. Question Segmenter option defaults: in any block whose `A.` option
marker was located, each of the four option letters for which no
`<Letter>.` marker match exists in the options text gets the empty string
in the built row — the field is always present, never missing. -/
theorem option_defaults_c8 (am : List Char) (n : Nat) (rawBody op : List Char)
    (r : QRow) (k : Char)
    (hrow : mkRow am n rawBody = some r)
    (hop : optsPartOf rawBody = some op)
    (hk : k = 'A' ∨ k = 'B' ∨ k = 'C' ∨ k = 'D')
    (hnot : ∀ pr ∈ optFindall op, pr.1 ≠ k) :
    optField r k = [] := by
  simp only [mkRow] at hrow
  simp only [optsPartOf] at hop
  cases hA : findAMarker (pyStrip rawBody) with
  | none => rw [hA] at hrow; simp at hrow
  | some i =>
      rw [hA] at hrow hop
      simp only [Option.some.injEq] at hrow hop
      subst hrow
      subst hop
      have hemp := optsOf_eq_nil hnot
      rcases hk with rfl | rfl | rfl | rfl
      · exact hemp
      · exact hemp
      · exact hemp
      · exact hemp

/-- A block body whose options text contains only an `A.` marker. -/
def c8body : List Char := ("x A. a").toList

/-- The row that `mkRow` builds from `c8body`. -/
def c8row : QRow :=
  { number := 1, question := ("x").toList, optA := ("a").toList,
    optB := [], optC := [], optD := [], answer := ['A'] }

theorem option_defaults_c8_witness : optField c8row 'B' = [] :=
  option_defaults_c8 ['A'] 1 c8body (("A. a").toList) c8row 'B'
    (by decide) (by decide) (Or.inr (Or.inl rfl)) (by decide)

theorem isAnswerLetter_cases {c : Char} (h : isAnswerLetter c) :
    c = 'A' ∨ c = 'B' ∨ c = 'C' ∨ c = 'D' := by
  simp only [isAnswerLetter, Bool.or_eq_true, decide_eq_true_eq] at h
  tauto

theorem parse_answers_props (s am : List Char) (h : parse_answers s = some am) :
    am.length = 80 ∧ ∀ c ∈ am, isAnswerLetter c := by
  simp only [parse_answers] at h
  by_cases hlen : (((if (wordTokens none (normFw s)).length < 80
      then bareTokens (normFw s) else wordTokens none (normFw s))).take 80).length = 80
  · rw [if_pos hlen] at h
    simp only [Option.some.injEq] at h
    subst h
    refine ⟨hlen, ?_⟩
    intro c hc
    have hc2 := List.take_subset 80 _ hc
    by_cases hw : (wordTokens none (normFw s)).length < 80
    · rw [if_pos hw] at hc2
      simp only [bareTokens] at hc2
      exact (List.mem_filter.mp hc2).2
    · rw [if_neg hw] at hc2
      exact mem_wordTokens_isAnswerLetter hc2
  · rw [if_neg hlen] at h; simp at h

/-- C10. Record Assembler answers: whenever the answer parse succeeded,
every row of the assembled table carries a non-empty answer that is one of
the four letters — the answer list is total on `1..80`, every emitted row's
number lies in `1..80`, and each parsed token is an `A`/`B`/`C`/`D`, so the
defaulting dictionary lookup never falls through to the empty string. -/
theorem assembled_answers_c10 (s text am : List Char)
    (h : parse_answers s = some am) :
    ∀ r ∈ parse_questions text am,
      r.answer = ['A'] ∨ r.answer = ['B'] ∨ r.answer = ['C'] ∨ r.answer = ['D'] := by
  obtain ⟨hlen, hall⟩ := parse_answers_props s am h
  intro r hr
  have hperm : (parse_questions text am).Perm (rowsOf text am) :=
    List.perm_insertionSort rowNumberLE (rowsOf text am)
  obtain ⟨⟨h1, h2⟩, hans⟩ := mem_rowsOf text am r (hperm.subset hr)
  have hidx : r.number - 1 < am.length := by omega
  have hget : am.getD (r.number - 1) 'A' ∈ am := by
    rw [List.getD_eq_getElem am 'A' hidx]
    exact List.getElem_mem hidx
  have hlet := hall _ hget
  have hansver : r.answer = [am.getD (r.number - 1) 'A'] := by
    rw [hans]; unfold answerGet; rw [if_pos ⟨h1, h2⟩]
  rw [hansver]
  rcases isAnswerLetter_cases hlet with hc | hc | hc | hc
  · exact Or.inl (by rw [hc])
  · exact Or.inr (Or.inl (by rw [hc]))
  · exact Or.inr (Or.inr (Or.inl (by rw [hc])))
  · exact Or.inr (Or.inr (Or.inr (by rw [hc])))

/-- The 80-answer list parsed from `ansKey80`. -/
def c10am : List Char := List.replicate 80 'A'

/-- The row that the pipeline builds from `qtextW` with answers `c10am`. -/
def c10row : QRow :=
  { number := 1, question := ("q").toList, optA := ("x").toList,
    optB := [], optC := [], optD := [], answer := ['A'] }

set_option maxRecDepth 10000 in
theorem assembled_answers_c10_witness :
    c10row.answer = ['A'] ∨ c10row.answer = ['B']
    ∨ c10row.answer = ['C'] ∨ c10row.answer = ['D'] :=
  assembled_answers_c10 ansKey80 qtextW c10am (by decide) c10row (by decide)
